import Mathlib

/-!
Verification of the rope text buffer and editing session of the
golang-text-editor repository.

The Go sources are shallowly embedded:
* pkg/buffer/rope.go   — the Rope structure and its operations
* pkg/editor/editor.go — the Session state machine (undo/redo, cursor,
  insertion, deletion, search)

Go byte strings are modelled as lists of characters (one list element per
byte); Go ints are modelled as unbounded integers, which is faithful for
this program since no arithmetic here approaches machine-int overflow.
A nil `*Rope` pointer is modelled by the dedicated constructor `Rope.nilR`.
-/

set_option autoImplicit false

/-- Byte strings of the Go program: one list entry per byte. -/
abbrev Str := List Char

/-- Model of the Go struct `Rope` from pkg/buffer/rope.go.  A Go `*Rope`
value is either the nil pointer (`nilR`) or a node carrying the four
fields `left`, `right`, `data`, `weight`. -/
inductive Rope where
  | nilR : Rope
  | mk (left : Rope) (right : Rope) (data : Str) (weight : Int) : Rope
deriving DecidableEq, Repr

/-- The error values produced by the rope operations in rope.go,
distinguished by their message: "rope is nil", "index ... out of
bounds ...", "invalid range ...". -/
inductive RopeErr where
  | nilRope
  | outOfRange
  | invalidRange
deriving DecidableEq, Repr

/-- rope.go: `maxLeafLength = 8`. -/
def maxLeafLength : Nat := 8

/-- rope.go `isLeaf`: a node whose two child pointers are both nil. -/
def Rope.isLeaf : Rope → Bool
  | .mk .nilR .nilR _ _ => true
  | _ => false

/-- True exactly for the nil pointer. -/
def Rope.isNil : Rope → Bool
  | .nilR => true
  | _ => false

/-- rope.go `Length`: nil has length 0, a leaf the length of its data,
an internal node the sum of the lengths of its children. -/
def Rope.Length : Rope → Int
  | .nilR => 0
  | .mk .nilR .nilR d _ => d.length
  | .mk l r _ _ => l.Length + r.Length

/-- rope.go `String`: in-order concatenation of the leaf data. -/
def Rope.toStr : Rope → Str
  | .nilR => []
  | .mk .nilR .nilR d _ => d
  | .mk l r _ _ => l.toStr ++ r.toStr

/-- rope.go `Weight`: 0 for nil, otherwise the stored weight field. -/
def Rope.Weight : Rope → Int
  | .nilR => 0
  | .mk _ _ _ w => w

/-- rope.go `NewRope`: strings of length at most `maxLeafLength` become a
single leaf; longer strings are split at the midpoint and the two halves
are built recursively, the weight of the new internal node being the
length of its left child. -/
def NewRope (s : Str) : Rope :=
  if s.length ≤ maxLeafLength then
    .mk .nilR .nilR s s.length
  else
    let mid := s.length / 2
    let left := NewRope (s.take mid)
    let right := NewRope (s.drop mid)
    .mk left right [] left.Length
termination_by s.length
decreasing_by
  all_goals simp only [List.length_take, List.length_drop, maxLeafLength] at *
  all_goals omega

/-- rope.go `Concat`: if either operand is nil return the other, else build
an internal node whose weight is the total length of the left operand. -/
def Concat : Rope → Rope → Rope
  | .nilR, r2 => r2
  | r1, .nilR => r1
  | r1, r2 => .mk r1 r2 [] r1.Length

/-- rope.go `Index`: nil fails; an index outside `[0, length)` fails;
at a leaf the byte is read directly; at an internal node the weight routes
the lookup left or right. -/
def Rope.Index : Rope → Int → Except RopeErr Char
  | .nilR, _ => .error .nilRope
  | .mk l r d w, i =>
    let len := (Rope.mk l r d w).Length
    if i < 0 ∨ i ≥ len then .error .outOfRange
    else if (Rope.mk l r d w).isLeaf then .ok (d.getD i.toNat (Char.ofNat 0))
    else if i < w then Rope.Index l i
    else Rope.Index r (i - w)

/-- rope.go `Split`: nil fails; a split point outside `[0, length]` fails;
`i = 0` and `i = length` return a nil half; a leaf is cut through its data
and rebuilt with `NewRope`; at an internal node the weight routes the
recursion, the boundary case `i = weight` returning the two children. -/
def Rope.Split : Rope → Int → Except RopeErr (Rope × Rope)
  | .nilR, _ => .error .nilRope
  | .mk l r d w, i =>
    let len := (Rope.mk l r d w).Length
    if i < 0 ∨ i > len then .error .outOfRange
    else if i = 0 then .ok (.nilR, .mk l r d w)
    else if i = len then .ok (.mk l r d w, .nilR)
    else if (Rope.mk l r d w).isLeaf then
      .ok (NewRope (d.take i.toNat), NewRope (d.drop i.toNat))
    else if i < w then
      match Rope.Split l i with
      | .error e => .error e
      | .ok (a, b) => .ok (a, Concat b r)
    else if i > w then
      match Rope.Split r (i - w) with
      | .error e => .error e
      | .ok (a, b) => .ok (Concat l a, b)
    else .ok (l, r)

/-- rope.go `Insert`: inserting into a nil rope returns `NewRope s`
without any bounds check; otherwise an index outside `[0, length]` fails,
and in range the rope is split at `i` and reassembled around the new
content. -/
def Rope.Insert (r : Rope) (i : Int) (s : Str) : Except RopeErr Rope :=
  match r with
  | .nilR => .ok (NewRope s)
  | .mk l rr d w =>
    let len := (Rope.mk l rr d w).Length
    if i < 0 ∨ i > len then .error .outOfRange
    else
      match (Rope.mk l rr d w).Split i with
      | .error e => .error e
      | .ok (left, right) => .ok (Concat (Concat left (NewRope s)) right)

/-- rope.go `Delete`: nil fails; a range with `start < 0`, `stop > length`
or `start > stop` fails; an empty range returns the rope unchanged; else
two splits cut out `[start, stop)` and the outer parts are concatenated. -/
def Rope.Delete (r : Rope) (start stop : Int) : Except RopeErr Rope :=
  match r with
  | .nilR => .error .nilRope
  | .mk l rr d w =>
    let len := (Rope.mk l rr d w).Length
    if start < 0 ∨ stop > len ∨ start > stop then .error .invalidRange
    else if start = stop then .ok (Rope.mk l rr d w)
    else
      match (Rope.mk l rr d w).Split start with
      | .error e => .error e
      | .ok (left, temp) =>
        match temp.Split (stop - start) with
        | .error e => .error e
        | .ok (_, right) => .ok (Concat left right)

/-- rope.go `Substring`: the same double split as `Delete`, returning the
string form of the middle piece. -/
def Rope.Substring (r : Rope) (start stop : Int) : Except RopeErr Str :=
  match r with
  | .nilR => .error .nilRope
  | .mk l rr d w =>
    let len := (Rope.mk l rr d w).Length
    if start < 0 ∨ stop > len ∨ start > stop then .error .invalidRange
    else if start = stop then .ok []
    else
      match (Rope.mk l rr d w).Split start with
      | .error e => .error e
      | .ok (_, temp) =>
        match temp.Split (stop - start) with
        | .error e => .error e
        | .ok (sub, _) => .ok sub.toStr

/-- Well-formedness of a rope value as produced by the rope.go API:
an internal node has two non-nil children and its cached weight equals the
total length of its left child.  The struct fields are unexported in Go,
so every rope reachable through the package API satisfies this. -/
def wf : Rope → Bool
  | .nilR => true
  | .mk .nilR .nilR _ _ => true
  | .mk l r _ w => !l.isNil && !r.isNil && (w == l.Length) && wf l && wf r

/-- The weight invariant alone (the property named by the spec): every
internal node caches as weight the total length of its left subtree. -/
def weightsOk : Rope → Bool
  | .nilR => true
  | .mk .nilR .nilR _ _ => true
  | .mk l r _ w => (w == l.Length) && weightsOk l && weightsOk r

namespace Editor

/-- The action tag "insert" used in editor.go. -/
def insTag : String := "insert"

/-- The action tag "delete" used in editor.go. -/
def delTag : String := "delete"

/-- editor.go `Action`: an undo/redo log entry. -/
structure Action where
  actionType : String
  position : Int
  content : Str
deriving DecidableEq, Repr

/-- editor.go `Session`, restricted to the fields the editing state machine
reads and writes.  The purely presentational fields (screen size, filename,
status message, last search query) do not influence any modelled
transition and are omitted. -/
structure Session where
  rope : Rope
  undoStack : List Action
  redoStack : List Action
  cursorIdx : Int
  cursorRow : Int
  cursorCol : Int
deriving DecidableEq, Repr

/-- editor.go arrow-key codes. -/
def ArrowUp : Int := 1000

/-- editor.go arrow-key codes. -/
def ArrowDown : Int := 1001

/-- editor.go arrow-key codes. -/
def ArrowLeft : Int := 1002

/-- editor.go arrow-key codes. -/
def ArrowRight : Int := 1003

/-- Go `strings.Split(text, "\n")` on our byte lists: the empty string
yields one empty piece, and every newline byte starts a new piece. -/
def splitLines : Str → List Str
  | [] => [[]]
  | c :: rest =>
    let r := splitLines rest
    if c = '\n' then [] :: r
    else
      match r with
      | [] => [[c]]
      | h :: t => (c :: h) :: t

/-- editor.go `getLines`: split the rope content on newlines; an empty
buffer yields a single empty line. -/
def getLines (ss : Session) : List Str :=
  let text := ss.rope.toStr
  if text = [] then [[]] else splitLines text

/-- editor.go `getLineStartIndex`: sum of `length + 1` over the lines
before the 1-indexed `row`, stopping at the end of the line list. -/
def getLineStartIndex (lines : List Str) (row : Int) : Int :=
  (lines.take (row - 1).toNat).foldl (fun acc l => acc + l.length + 1) 0

/-- editor.go `updateCursorPosition`: recompute 1-indexed row and column
by walking the buffer text from offset 0 up to the cursor index,
restarting the column after each newline byte. -/
def updateCursorPosition (ss : Session) : Session :=
  let text := ss.rope.toStr
  let steps := (min ss.cursorIdx (text.length : Int)).toNat
  let rc := (text.take steps).foldl
    (fun (rc : Int × Int) c => if c = '\n' then (rc.1 + 1, 1) else (rc.1, rc.2 + 1))
    (1, 1)
  { ss with cursorRow := rc.1, cursorCol := rc.2 }

/-- Reading a line of the `getLines` list by 1-indexed row, as
`lines[row-1]` in editor.go (which is only evaluated in-bounds there). -/
def lineAt (lines : List Str) (row : Int) : Str :=
  lines.getD (row - 1).toNat []

/-- The final bounds check of editor.go `editorMoveCursor` (lines
302-308): clamp a negative cursor index to 0 and an index beyond the
rope length to the length. -/
def clampCursor (ss : Session) : Session :=
  let ss2 := if ss.cursorIdx < 0 then { ss with cursorIdx := 0 } else ss
  if ss2.cursorIdx > ss2.rope.Length then { ss2 with cursorIdx := ss2.rope.Length }
  else ss2

/-- editor.go `editorMoveCursor`: the four arrow transitions on
row/column with the cursor index kept in step, followed by the final
bounds check clamping the cursor index into `[0, length]`. -/
def editorMoveCursor (arrowKey : Int) (ss : Session) : Session :=
  let lines := getLines ss
  let currentLine : Str :=
    if ss.cursorRow > 0 ∧ ss.cursorRow ≤ (lines.length : Int) then lineAt lines ss.cursorRow
    else []
  let ss1 :=
    if arrowKey = ArrowLeft then
      if ss.cursorCol > 1 then
        { ss with cursorCol := ss.cursorCol - 1, cursorIdx := ss.cursorIdx - 1 }
      else if ss.cursorRow > 1 then
        let row := ss.cursorRow - 1
        let prevLine := lineAt lines row
        { ss with cursorRow := row, cursorCol := prevLine.length + 1,
                  cursorIdx := ss.cursorIdx - 1 }
      else ss
    else if arrowKey = ArrowRight then
      if ss.cursorCol ≤ (currentLine.length : Int) then
        { ss with cursorCol := ss.cursorCol + 1, cursorIdx := ss.cursorIdx + 1 }
      else if ss.cursorRow < (lines.length : Int) then
        { ss with cursorRow := ss.cursorRow + 1, cursorCol := 1,
                  cursorIdx := ss.cursorIdx + 1 }
      else ss
    else if arrowKey = ArrowUp then
      if ss.cursorRow > 1 then
        let row := ss.cursorRow - 1
        let prevLine := lineAt lines row
        let col := if ss.cursorCol > (prevLine.length : Int) + 1 then
                     (prevLine.length : Int) + 1
                   else ss.cursorCol
        { ss with cursorRow := row, cursorCol := col,
                  cursorIdx := getLineStartIndex lines row + col - 1 }
      else ss
    else if arrowKey = ArrowDown then
      if ss.cursorRow < (lines.length : Int) then
        let row := ss.cursorRow + 1
        let col := if row ≤ (lines.length : Int) then
                     let nextLine := lineAt lines row
                     if ss.cursorCol > (nextLine.length : Int) + 1 then
                       (nextLine.length : Int) + 1
                     else ss.cursorCol
                   else ss.cursorCol
        { ss with cursorRow := row, cursorCol := col,
                  cursorIdx := getLineStartIndex lines row + col - 1 }
      else ss
    else ss
  clampCursor ss1

/-- editor.go `handleInsert`: an empty or nil buffer is replaced outright
by `NewRope s` (recording no action and clearing nothing); otherwise a
successful rope insert records the action, clears the redo stack and
installs the new rope, while a failed insert changes nothing.  In every
case the cursor index then advances by the length of `s` and row/column
are recomputed. -/
def handleInsert (s : Str) (ss : Session) : Session :=
  let ss1 :=
    if ss.rope = .nilR ∨ ss.rope.Length = 0 then
      { ss with rope := NewRope s }
    else
      match ss.rope.Insert ss.cursorIdx s with
      | .ok newRope =>
        { ss with undoStack := ss.undoStack ++ [⟨insTag, ss.cursorIdx, s⟩],
                  redoStack := [],
                  rope := newRope }
      | .error _ => ss
  updateCursorPosition { ss1 with cursorIdx := ss1.cursorIdx + s.length }

/-- editor.go `handleBackspace`: with the cursor past offset 0, read the
byte before the cursor, delete it, record the delete action, clear the
redo stack and move the cursor back; a failed delete (and a cursor at 0)
changes nothing. -/
def handleBackspace (ss : Session) : Session :=
  if ss.cursorIdx > 0 then
    let deletedChar :=
      match ss.rope.Index (ss.cursorIdx - 1) with
      | .ok c => c
      | .error _ => Char.ofNat 0
    match ss.rope.Delete (ss.cursorIdx - 1) ss.cursorIdx with
    | .ok newRope =>
      updateCursorPosition
        { ss with undoStack := ss.undoStack ++ [⟨delTag, ss.cursorIdx - 1, [deletedChar]⟩],
                  redoStack := [],
                  rope := newRope,
                  cursorIdx := ss.cursorIdx - 1 }
    | .error _ => ss
  else ss

/-- editor.go `handleUndo`: pop the most recent action, reverse it on the
rope (ignoring a rope error, in which case buffer and cursor stay), push
the popped action onto the redo stack and recompute row/column. -/
def handleUndo (ss : Session) : Session :=
  match ss.undoStack.getLast? with
  | none => ss
  | some action =>
    let ss1 := { ss with undoStack := ss.undoStack.dropLast }
    let ss2 :=
      if action.actionType = insTag then
        match ss1.rope.Delete action.position (action.position + action.content.length) with
        | .ok newRope => { ss1 with rope := newRope, cursorIdx := action.position }
        | .error _ => ss1
      else if action.actionType = delTag then
        match ss1.rope.Insert action.position action.content with
        | .ok newRope =>
          { ss1 with rope := newRope, cursorIdx := action.position + action.content.length }
        | .error _ => ss1
      else ss1
    updateCursorPosition { ss2 with redoStack := ss2.redoStack ++ [action] }

/-- editor.go `handleRedo`: pop the most recent undone action, re-apply it
forward (ignoring a rope error, in which case buffer and cursor stay),
push it back onto the undo stack and recompute row/column. -/
def handleRedo (ss : Session) : Session :=
  match ss.redoStack.getLast? with
  | none => ss
  | some action =>
    let ss1 := { ss with redoStack := ss.redoStack.dropLast }
    let ss2 :=
      if action.actionType = insTag then
        match ss1.rope.Insert action.position action.content with
        | .ok newRope =>
          { ss1 with rope := newRope, cursorIdx := action.position + action.content.length }
        | .error _ => ss1
      else if action.actionType = delTag then
        match ss1.rope.Delete action.position (action.position + action.content.length) with
        | .ok newRope => { ss1 with rope := newRope, cursorIdx := action.position }
        | .error _ => ss1
      else ss1
    updateCursorPosition { ss2 with undoStack := ss2.undoStack ++ [action] }

end Editor

/-- Does the first list lead (start) the second?  This is the prefix test
Go's strings package performs byte by byte. -/
def listLeads : Str → Str → Bool
  | [], _ => true
  | _ :: _, [] => false
  | a :: as, b :: bs => a == b && listLeads as bs

/-- Position of the first occurrence of `sub` in `s`, if any: the
semantics of Go `strings.Index` restricted to our byte lists. -/
def firstMatchIdx : Str → Str → Option Nat
  | s, sub =>
    if listLeads sub s then some 0
    else
      match s with
      | [] => none
      | _ :: rest => (firstMatchIdx rest sub).map (fun n => n + 1)

/-- Go `strings.Index`: first occurrence position, or -1 if absent. -/
def strIndex (s sub : Str) : Int :=
  match firstMatchIdx s sub with
  | some n => n
  | none => -1

/-- Go `strings.Count`: for an empty pattern, one more than the number of
runes (= bytes in this model); otherwise the number of non-overlapping
occurrences counted by a left-to-right scan that jumps past each match. -/
def countOccs (s sub : Str) : Nat :=
  if hsub : sub = [] then s.length + 1
  else
    match h : firstMatchIdx s sub with
    | none => 0
    | some i => 1 + countOccs (s.drop (i + sub.length)) sub
termination_by s.length
decreasing_by
  rcases s with _ | ⟨c, s⟩
  · rcases sub with _ | ⟨b, bs⟩
    · exact absurd rfl hsub
    · simp [firstMatchIdx, listLeads] at h
  · have h2 : 0 < sub.length := List.length_pos.mpr hsub
    simp only [List.length_drop, List.length_cons]
    omega

/-- Follows the spec's words (§4.4 match enumeration): the offsets of the
non-overlapping occurrences of the query, scanned left to right with the
scan advancing past each matched occurrence.  This is the spec-side
description against which the code's search cycle is compared. -/
def specOccurrences (s sub : Str) : List Nat :=
  if hsub : sub = [] then []
  else
    match h : firstMatchIdx s sub with
    | none => []
    | some i =>
      i :: (specOccurrences (s.drop (i + sub.length)) sub).map (fun k => k + (i + sub.length))
termination_by s.length
decreasing_by
  rcases s with _ | ⟨c, s⟩
  · rcases sub with _ | ⟨b, bs⟩
    · exact absurd rfl hsub
    · simp [firstMatchIdx, listLeads] at h
  · have h2 : 0 < sub.length := List.length_pos.mpr hsub
    simp only [List.length_drop, List.length_cons]
    omega

namespace Editor

/-- Result of running the search cycle of editor.go `handleSearch`:
the successive cursor offsets it assigns, and whether the Go code would
have panicked on an out-of-bounds slice `text[searchFrom:]` (in which
case the offsets assigned before the panic are recorded). -/
inductive SearchRun where
  | ok (visits : List Int)
  | panic (visits : List Int)
deriving DecidableEq, Repr

/-- The cursor offsets assigned during the run. -/
def SearchRun.visits : SearchRun → List Int
  | .ok vs => vs
  | .panic vs => vs

/-- Whether the run completed without a slice panic. -/
def SearchRun.completed : SearchRun → Bool
  | .ok _ => true
  | .panic _ => false

/-- The `for i := 1; i <= numInstances; i++` loop of editor.go
`handleSearch`, under a user who answers every prompt with the "next"
key (Ctrl-N).  Each iteration slices `text[searchFrom:]` (a panic when
`searchFrom` is outside `[0, len(text)]`), finds the next match index
there, moves the cursor to `searchFrom + idx`, and then advances
`searchFrom` by `cursorIdx + 1` exactly as the Go line
`searchFrom += session.cursorIdx + 1` does. -/
def searchLoop (text query : Str) : Nat → Int → SearchRun
  | 0, _ => .ok []
  | n + 1, searchFrom =>
    if searchFrom < 0 ∨ searchFrom > (text.length : Int) then .panic []
    else
      let idx := strIndex (text.drop searchFrom.toNat) query
      let cursor := searchFrom + idx
      match searchLoop text query n (searchFrom + cursor + 1) with
      | .ok vs => .ok (cursor :: vs)
      | .panic vs => .panic (cursor :: vs)

/-- The cursor offsets visited by the search cycle of `handleSearch` for
a given buffer text and query, when the user keeps pressing Ctrl-N:
the loop runs `strings.Count(text, query)` times starting the scan at 0. -/
def searchVisits (text query : Str) : List Int :=
  (searchLoop text query (countOccs text query) 0).visits

end Editor

theorem Rope.isLeaf_iff (l r : Rope) (d : Str) (w : Int) :
    (Rope.mk l r d w).isLeaf = true ↔ l = .nilR ∧ r = .nilR := by
  cases l <;> cases r <;> simp [Rope.isLeaf]

theorem Rope.isNil_iff (r : Rope) : r.isNil = true ↔ r = .nilR := by
  cases r <;> simp [Rope.isNil]

theorem Rope.toStr_leaf (d : Str) (w : Int) :
    (Rope.mk .nilR .nilR d w).toStr = d := rfl

theorem Rope.toStr_node (l r : Rope) (d : Str) (w : Int)
    (h : ¬(l = .nilR ∧ r = .nilR)) :
    (Rope.mk l r d w).toStr = l.toStr ++ r.toStr := by
  cases l <;> cases r <;> simp_all [Rope.toStr]

theorem Rope.Length_node (l r : Rope) (d : Str) (w : Int)
    (h : ¬(l = .nilR ∧ r = .nilR)) :
    (Rope.mk l r d w).Length = l.Length + r.Length := by
  cases l <;> cases r <;> simp_all [Rope.Length]

theorem Rope.Length_eq_toStr (r : Rope) : r.Length = (r.toStr.length : Int) := by
  induction r with
  | nilR => simp [Rope.Length, Rope.toStr]
  | mk l rr d w ihl ihr =>
    by_cases h : l = .nilR ∧ rr = .nilR
    · obtain ⟨h1, h2⟩ := h
      subst h1; subst h2
      simp [Rope.Length, Rope.toStr]
    · rw [Rope.Length_node l rr d w h, Rope.toStr_node l rr d w h]
      simp [ihl, ihr]

theorem Rope.Length_nonneg (r : Rope) : 0 ≤ r.Length := by
  rw [Rope.Length_eq_toStr]; positivity

theorem NewRope_ne_nil (s : Str) : NewRope s ≠ .nilR := by
  rw [NewRope]
  split <;> simp

theorem toStr_NewRope (s : Str) : (NewRope s).toStr = s := by
  induction s using NewRope.induct with
  | case1 s h => rw [NewRope]; simp [h, Rope.toStr]
  | case2 s h mid ih1 ih2 =>
    rw [NewRope]
    simp only [h, if_false]
    rw [Rope.toStr_node _ _ _ _ (by simp [NewRope_ne_nil])]
    rw [ih1, ih2, List.take_append_drop]

theorem Length_NewRope (s : Str) : (NewRope s).Length = (s.length : Int) := by
  rw [Rope.Length_eq_toStr, toStr_NewRope]

theorem wf_node_iff (l r : Rope) (d : Str) (w : Int) :
    wf (Rope.mk l r d w) = true ↔
      (l = .nilR ∧ r = .nilR) ∨
      (l ≠ .nilR ∧ r ≠ .nilR ∧ w = l.Length ∧ wf l = true ∧ wf r = true) := by
  cases l <;> cases r <;> simp [wf, Rope.isNil, and_assoc]

theorem wf_NewRope (s : Str) : wf (NewRope s) = true := by
  induction s using NewRope.induct with
  | case1 s h => rw [NewRope]; simp [h, wf]
  | case2 s h mid ih1 ih2 =>
    rw [NewRope]
    simp only [h, if_false]
    rw [wf_node_iff]
    exact Or.inr ⟨NewRope_ne_nil _, NewRope_ne_nil _, rfl, ih1, ih2⟩

theorem toStr_Concat (a b : Rope) : (Concat a b).toStr = a.toStr ++ b.toStr := by
  cases a with
  | nilR => simp [Concat, Rope.toStr]
  | mk l1 r1 d1 w1 =>
    cases b with
    | nilR => simp [Concat, Rope.toStr]
    | mk l2 r2 d2 w2 =>
      show (Rope.mk (Rope.mk l1 r1 d1 w1) (Rope.mk l2 r2 d2 w2) [] _).toStr = _
      rw [Rope.toStr_node _ _ _ _ (by simp)]

theorem Length_Concat (a b : Rope) : (Concat a b).Length = a.Length + b.Length := by
  rw [Rope.Length_eq_toStr, Rope.Length_eq_toStr, Rope.Length_eq_toStr, toStr_Concat]
  simp

theorem Concat_eq_nil_iff (a b : Rope) :
    Concat a b = .nilR ↔ a = .nilR ∧ b = .nilR := by
  cases a <;> cases b <;> simp [Concat]

theorem wf_Concat (a b : Rope) (ha : wf a = true) (hb : wf b = true) :
    wf (Concat a b) = true := by
  cases a with
  | nilR => simpa [Concat] using hb
  | mk l1 r1 d1 w1 =>
    cases b with
    | nilR => simpa [Concat] using ha
    | mk l2 r2 d2 w2 =>
      show wf (Rope.mk (Rope.mk l1 r1 d1 w1) (Rope.mk l2 r2 d2 w2) [] _) = true
      rw [wf_node_iff]
      exact Or.inr ⟨by simp, by simp, rfl, ha, hb⟩

theorem wf_weightsOk (r : Rope) (h : wf r = true) : weightsOk r = true := by
  induction r with
  | nilR => simp [weightsOk]
  | mk l rr d w ihl ihr =>
    rw [wf_node_iff] at h
    rcases h with ⟨h1, h2⟩ | ⟨h1, h2, h3, h4, h5⟩
    · subst h1; subst h2; simp [weightsOk]
    · cases l with
      | nilR => exact absurd rfl h1
      | mk a b dd ww =>
        cases rr with
        | nilR => exact absurd rfl h2
        | mk a2 b2 dd2 ww2 =>
          simp_all [weightsOk]

/-- On a well-formed non-nil rope, `Split` succeeds for every index in
`[0, length]` and produces the take/drop decomposition of the string form,
with both halves again well-formed. -/
theorem split_ok : ∀ (r : Rope), wf r = true → ∀ i : Int,
    0 ≤ i → i ≤ r.Length → r ≠ .nilR →
    ∃ a b : Rope, r.Split i = .ok (a, b) ∧
      a.toStr = r.toStr.take i.toNat ∧ b.toStr = r.toStr.drop i.toNat ∧
      wf a = true ∧ wf b = true := by
  intro r
  induction r with
  | nilR => intro _ i _ _ hne; exact absurd rfl hne
  | mk l rr d w ihl ihr =>
    intro hwf i h0 hle _
    have hlen := Rope.Length_eq_toStr (Rope.mk l rr d w)
    rw [Rope.Split]
    rw [if_neg (by omega)]
    by_cases hi0 : i = 0
    · rw [if_pos hi0]
      subst hi0
      exact ⟨.nilR, .mk l rr d w, rfl, by simp [Rope.toStr], by simp, rfl, hwf⟩
    · rw [if_neg hi0]
      by_cases hiL : i = (Rope.mk l rr d w).Length
      · rw [if_pos hiL]
        refine ⟨.mk l rr d w, .nilR, rfl, ?_, ?_, hwf, rfl⟩
        · have : i.toNat = (Rope.mk l rr d w).toStr.length := by omega
          rw [this, List.take_length]
        · have : i.toNat = (Rope.mk l rr d w).toStr.length := by omega
          rw [this, List.drop_length]
          rfl
      · rw [if_neg hiL]
        by_cases hleaf : (Rope.mk l rr d w).isLeaf = true
        · rw [if_pos hleaf]
          obtain ⟨hl, hr⟩ := (Rope.isLeaf_iff l rr d w).mp hleaf
          subst hl; subst hr
          exact ⟨NewRope (d.take i.toNat), NewRope (d.drop i.toNat), rfl,
            by rw [toStr_NewRope, Rope.toStr_leaf],
            by rw [toStr_NewRope, Rope.toStr_leaf],
            wf_NewRope _, wf_NewRope _⟩
        · rw [if_neg hleaf]
          have hnl : ¬(l = .nilR ∧ rr = .nilR) := by
            intro hc
            exact hleaf ((Rope.isLeaf_iff l rr d w).mpr hc)
          have hnode := (wf_node_iff l rr d w).mp hwf
          rcases hnode with ⟨h1, h2⟩ | ⟨hln, hrn, hw, hwl, hwr⟩
          · exact absurd ⟨h1, h2⟩ hnl
          have hts := Rope.toStr_node l rr d w hnl
          have htL := Rope.Length_node l rr d w hnl
          have hlL := Rope.Length_eq_toStr l
          have hrL := Rope.Length_eq_toStr rr
          by_cases hlt : i < w
          · rw [if_pos hlt]
            obtain ⟨a, b, heq, hta, htb, hwa, hwb⟩ :=
              ihl hwl i h0 (by omega) hln
            rw [heq]
            refine ⟨a, Concat b rr, rfl, ?_, ?_, hwa, wf_Concat _ _ hwb hwr⟩
            · rw [hta, hts, List.take_append_of_le_length (by omega)]
            · rw [toStr_Concat, htb, hts,
                List.drop_append_of_le_length (by omega)]
          · rw [if_neg hlt]
            by_cases hgt : i > w
            · rw [if_pos hgt]
              obtain ⟨a, b, heq, hta, htb, hwa, hwb⟩ :=
                ihr hwr (i - w) (by omega) (by omega) hrn
              rw [heq]
              refine ⟨Concat l a, b, rfl, ?_, ?_, wf_Concat _ _ hwl hwa, hwb⟩
              · have h1 : i.toNat = l.toStr.length + (i - w).toNat := by omega
                rw [toStr_Concat, hta, hts, h1, List.take_append]
              · have h1 : i.toNat = l.toStr.length + (i - w).toNat := by omega
                rw [htb, hts, h1, List.drop_append]
            · rw [if_neg hgt]
              have hiw : i = w := by omega
              refine ⟨l, rr, rfl, ?_, ?_, hwl, hwr⟩
              · rw [hts, List.take_left' (by omega)]
              · rw [hts, List.drop_left' (by omega)]

/-- What a successful `Split` tells us: the index was in range and the
two halves are the take/drop decomposition, both well-formed. -/
theorem split_inv (r : Rope) (hwf : wf r = true) (i : Int) (p : Rope × Rope)
    (h : r.Split i = .ok p) :
    0 ≤ i ∧ i ≤ r.Length ∧ p.1.toStr = r.toStr.take i.toNat ∧
    p.2.toStr = r.toStr.drop i.toNat ∧ wf p.1 = true ∧ wf p.2 = true := by
  cases r with
  | nilR => simp [Rope.Split] at h
  | mk l rr d w =>
    have hb : 0 ≤ i ∧ i ≤ (Rope.mk l rr d w).Length := by
      by_cases hcond : i < 0 ∨ i > (Rope.mk l rr d w).Length
      · rw [Rope.Split, if_pos hcond] at h
        exact absurd h (by simp)
      · omega
    obtain ⟨a, b, heq, hta, htb, hwa, hwb⟩ :=
      split_ok _ hwf i hb.1 hb.2 (by simp)
    rw [heq] at h
    obtain rfl : p = (a, b) := by
      simpa using h.symm
    exact ⟨hb.1, hb.2, hta, htb, hwa, hwb⟩

/-- On a well-formed rope, `Insert` succeeds whenever the rope is nil
(regardless of the index) or the index is in `[0, length]`, splicing the
new content into the string form at the index. -/
theorem insert_ok (r : Rope) (hwf : wf r = true) (i : Int) (s : Str)
    (hr : r = .nilR ∨ (0 ≤ i ∧ i ≤ r.Length)) :
    ∃ q : Rope, r.Insert i s = .ok q ∧
      q.toStr = r.toStr.take i.toNat ++ s ++ r.toStr.drop i.toNat ∧
      wf q = true ∧ q ≠ .nilR := by
  cases r with
  | nilR =>
    refine ⟨NewRope s, rfl, ?_, wf_NewRope s, NewRope_ne_nil s⟩
    simp [toStr_NewRope, Rope.toStr]
  | mk l rr d w =>
    rcases hr with hc | ⟨h0, hle⟩
    · exact absurd hc (by simp)
    rw [Rope.Insert, if_neg (by omega)]
    obtain ⟨a, b, heq, hta, htb, hwa, hwb⟩ :=
      split_ok _ hwf i h0 hle (by simp)
    rw [heq]
    refine ⟨_, rfl, ?_, ?_, ?_⟩
    · rw [toStr_Concat, toStr_Concat, hta, htb, toStr_NewRope]
    · exact wf_Concat _ _ (wf_Concat _ _ hwa (wf_NewRope s)) hwb
    · intro hc
      rw [Concat_eq_nil_iff] at hc
      rw [Concat_eq_nil_iff] at hc
      exact NewRope_ne_nil s hc.1.2

/-- What a successful `Insert` tells us: the result is the splice of the
content into the string form, well-formed и non-nil; and for a non-nil
rope the index was in `[0, length]`. -/
theorem insert_inv (r : Rope) (hwf : wf r = true) (i : Int) (s : Str)
    (q : Rope) (h : r.Insert i s = .ok q) :
    q.toStr = r.toStr.take i.toNat ++ s ++ r.toStr.drop i.toNat ∧
    wf q = true ∧ q ≠ .nilR ∧
    (r ≠ .nilR → 0 ≤ i ∧ i ≤ r.Length) := by
  cases r with
  | nilR =>
    obtain rfl : q = NewRope s := by simpa [Rope.Insert] using h.symm
    refine ⟨?_, wf_NewRope s, NewRope_ne_nil s, by intro hc; exact absurd rfl hc⟩
    simp [toStr_NewRope, Rope.toStr]
  | mk l rr d w =>
    have hb : 0 ≤ i ∧ i ≤ (Rope.mk l rr d w).Length := by
      by_cases hcond : i < 0 ∨ i > (Rope.mk l rr d w).Length
      · rw [Rope.Insert, if_pos hcond] at h
        exact absurd h (by simp)
      · omega
    obtain ⟨q2, heq, hts, hwq, hnn⟩ :=
      insert_ok _ hwf i s (Or.inr hb)
    rw [heq] at h
    obtain rfl : q = q2 := by simpa using h.symm
    exact ⟨hts, hwq, hnn, fun _ => hb⟩

/-- On a well-formed non-nil rope, `Delete` succeeds for every range
`0 ≤ start ≤ stop ≤ length`, removing exactly that slice of the string
form. -/
theorem delete_ok (r : Rope) (hwf : wf r = true) (a b : Int)
    (h0 : 0 ≤ a) (hab : a ≤ b) (hble : b ≤ r.Length) (hnn : r ≠ .nilR) :
    ∃ q : Rope, r.Delete a b = .ok q ∧
      q.toStr = r.toStr.take a.toNat ++ r.toStr.drop b.toNat ∧
      wf q = true := by
  cases r with
  | nilR => exact absurd rfl hnn
  | mk l rr d w =>
    have hlen := Rope.Length_eq_toStr (Rope.mk l rr d w)
    rw [Rope.Delete, if_neg (by omega)]
    by_cases hab2 : a = b
    · rw [if_pos hab2]
      subst hab2
      exact ⟨_, rfl, (List.take_append_drop a.toNat _).symm, hwf⟩
    · rw [if_neg hab2]
      obtain ⟨x, temp, heq1, ht1, ht2, hw1, hw2⟩ :=
        split_ok _ hwf a h0 (by omega) (by simp)
      rw [heq1]
      have htempL : temp.Length = (Rope.mk l rr d w).Length - a := by
        rw [Rope.Length_eq_toStr temp, ht2]
        simp only [List.length_drop]
        omega
      have htemp_nn : temp ≠ .nilR := by
        intro hc
        subst hc
        have : (Rope.nilR).Length = 0 := rfl
        omega
      obtain ⟨mid, right, heq2, ht3, ht4, hw3, hw4⟩ :=
        split_ok temp hw2 (b - a) (by omega) (by omega) htemp_nn
      refine ⟨Concat x right, by simp [heq2], ?_, wf_Concat _ _ hw1 hw4⟩
      rw [toStr_Concat, ht1, ht4, ht2, List.drop_drop]
      have h5 : a.toNat + (b - a).toNat = b.toNat := by omega
      rw [h5]

/-- What a successful `Delete` tells us: the bounds were valid and the
result is the string form with `[start, stop)` cut out, well-formed. -/
theorem delete_inv (r : Rope) (hwf : wf r = true) (a b : Int)
    (q : Rope) (h : r.Delete a b = .ok q) :
    q.toStr = r.toStr.take a.toNat ++ r.toStr.drop b.toNat ∧
    wf q = true ∧ 0 ≤ a ∧ a ≤ b ∧ b ≤ r.Length := by
  cases r with
  | nilR => simp [Rope.Delete] at h
  | mk l rr d w =>
    have hb : 0 ≤ a ∧ a ≤ b ∧ b ≤ (Rope.mk l rr d w).Length := by
      by_cases hcond : a < 0 ∨ b > (Rope.mk l rr d w).Length ∨ a > b
      · rw [Rope.Delete, if_pos hcond] at h
        exact absurd h (by simp)
      · omega
    obtain ⟨q2, heq, hts, hwq⟩ :=
      delete_ok _ hwf a b hb.1 hb.2.1 hb.2.2 (by simp)
    rw [heq] at h
    obtain rfl : q = q2 := by simpa using h.symm
    exact ⟨hts, hwq, hb.1, hb.2.1, hb.2.2⟩

/-- C2: for every string s and split point 0 ≤ i ≤ len(s), splitting
NewRope(s) at i and concatenating the two halves yields a rope whose
string form equals s. -/
theorem c2_split_concat_roundtrip (s : Str) (i : Int)
    (h0 : 0 ≤ i) (hle : i ≤ (s.length : Int)) :
    ∃ p : Rope × Rope, (NewRope s).Split i = .ok p ∧ (Concat p.1 p.2).toStr = s := by
  obtain ⟨a, b, heq, hta, htb, hwa, hwb⟩ :=
    split_ok (NewRope s) (wf_NewRope s) i h0
      (by rw [Length_NewRope]; exact hle) (NewRope_ne_nil s)
  refine ⟨(a, b), heq, ?_⟩
  rw [toStr_Concat]
  simp only []
  rw [hta, htb, toStr_NewRope, List.take_append_drop]

theorem c2_split_concat_roundtrip_witness :
    ∃ p : Rope × Rope, (NewRope ['h', 'e', 'l', 'l', 'o']).Split 2 = .ok p ∧
      (Concat p.1 p.2).toStr = ['h', 'e', 'l', 'l', 'o'] :=
  c2_split_concat_roundtrip ['h', 'e', 'l', 'l', 'o'] 2 (by decide) (by decide)

/-- C3: for every well-formed rope r, offset 0 ≤ i ≤ length(r) and string
s, deleting [i, i+len(s)) from insert(r, i, s) succeeds and gives back a
rope whose string form is toString(r).  (Well-formedness is implicit in
the claim: the rope struct fields are unexported, so every rope obtainable
through the buffer package API is well-formed.) -/
theorem c3_insert_delete_inverse (r : Rope) (i : Int) (s : Str)
    (hwf : wf r = true) (h0 : 0 ≤ i) (hle : i ≤ r.Length) :
    ∃ r1 r2 : Rope, r.Insert i s = .ok r1 ∧
      r1.Delete i (i + s.length) = .ok r2 ∧ r2.toStr = r.toStr := by
  obtain ⟨r1, heq1, hts1, hw1, hnn1⟩ := insert_ok r hwf i s (Or.inr ⟨h0, hle⟩)
  have hlen := Rope.Length_eq_toStr r
  have hTlen : (r.toStr.take i.toNat).length = i.toNat := by
    simp only [List.length_take]
    omega
  have hlen1 : r1.Length = r.Length + s.length := by
    rw [Rope.Length_eq_toStr r1, hts1]
    simp only [List.length_append, List.length_take, List.length_drop]
    push_cast
    omega
  obtain ⟨r2, heq2, hts2, hw2⟩ :=
    delete_ok r1 hw1 i (i + s.length) h0 (by omega) (by omega) hnn1
  refine ⟨r1, r2, heq1, heq2, ?_⟩
  rw [hts2, hts1]
  have hdl1 : (r.toStr.take i.toNat ++ s).length = (i + (s.length : Int)).toNat := by
    simp [hTlen]
    omega
  rw [List.drop_left' hdl1]
  rw [List.take_append_of_le_length (by simp [hTlen])]
  rw [List.take_append_of_le_length (by omega)]
  rw [List.take_take, min_self, List.take_append_drop]

/-- Evaluation rule: a string that fits in a leaf builds a single leaf. -/
theorem NewRope_small (s : Str) (h : s.length ≤ maxLeafLength) :
    NewRope s = .mk .nilR .nilR s s.length := by
  rw [NewRope, if_pos h]

theorem c3_insert_delete_inverse_witness :
    ∃ r1 r2 : Rope,
      (NewRope ['a', 'b', 'c']).Insert 1 ['x', 'y'] = .ok r1 ∧
      r1.Delete 1 (1 + (['x', 'y'] : Str).length) = .ok r2 ∧
      r2.toStr = (NewRope ['a', 'b', 'c']).toStr :=
  c3_insert_delete_inverse (NewRope ['a', 'b', 'c']) 1 ['x', 'y']
    (wf_NewRope _) (by decide) (by rw [Length_NewRope]; decide)

/-- C4: every rope produced by NewRope, Concat, Split, Insert or Delete
(from well-formed inputs, which is all the package API can supply) has
every internal node caching as weight the total length of its left
subtree; and for every internal node, length = length(left) +
length(right). -/
theorem c4_weight_invariant :
    (∀ s : Str, weightsOk (NewRope s) = true) ∧
    (∀ r1 r2 : Rope, wf r1 = true → wf r2 = true →
      weightsOk (Concat r1 r2) = true) ∧
    (∀ (r : Rope) (i : Int) (p : Rope × Rope), wf r = true →
      r.Split i = .ok p → weightsOk p.1 = true ∧ weightsOk p.2 = true) ∧
    (∀ (r : Rope) (i : Int) (s : Str) (q : Rope), wf r = true →
      r.Insert i s = .ok q → weightsOk q = true) ∧
    (∀ (r : Rope) (a b : Int) (q : Rope), wf r = true →
      r.Delete a b = .ok q → weightsOk q = true) ∧
    (∀ (l r : Rope) (d : Str) (w : Int), (Rope.mk l r d w).isLeaf = false →
      (Rope.mk l r d w).Length = l.Length + r.Length) := by
  refine ⟨?_, ?_, ?_, ?_, ?_, ?_⟩
  · intro s
    exact wf_weightsOk _ (wf_NewRope s)
  · intro r1 r2 h1 h2
    exact wf_weightsOk _ (wf_Concat r1 r2 h1 h2)
  · intro r i p hwf h
    obtain ⟨_, _, _, _, hw1, hw2⟩ := split_inv r hwf i p h
    exact ⟨wf_weightsOk _ hw1, wf_weightsOk _ hw2⟩
  · intro r i s q hwf h
    obtain ⟨_, hwq, _, _⟩ := insert_inv r hwf i s q h
    exact wf_weightsOk _ hwq
  · intro r a b q hwf h
    obtain ⟨_, hwq, _, _, _⟩ := delete_inv r hwf a b q h
    exact wf_weightsOk _ hwq
  · intro l r d w hleaf
    refine Rope.Length_node l r d w ?_
    intro hc
    rw [(Rope.isLeaf_iff l r d w).mpr hc] at hleaf
    exact absurd hleaf (by simp)

theorem c4_weight_invariant_witness :
    weightsOk (Concat (NewRope ['a', 'b']) (NewRope ['c'])) = true :=
  c4_weight_invariant.2.1 (NewRope ['a', 'b']) (NewRope ['c'])
    (wf_NewRope _) (wf_NewRope _)

/-- C5 (amended): for a non-nil well-formed rope, Insert fails with
OutOfRange exactly when i < 0 or i > length(r); but for the nil (absent)
rope Insert performs no bounds check at all and succeeds for every index,
returning NewRope(s). -/
theorem c5_insert_bounds (r : Rope) (i : Int) (s : Str) (hwf : wf r = true) :
    (r = .nilR → r.Insert i s = .ok (NewRope s)) ∧
    (r ≠ .nilR →
      ((i < 0 ∨ i > r.Length) → r.Insert i s = .error .outOfRange) ∧
      (0 ≤ i → i ≤ r.Length → ∃ q, r.Insert i s = .ok q)) := by
  constructor
  · intro h
    subst h
    rfl
  · intro hnn
    constructor
    · intro hcond
      cases r with
      | nilR => exact absurd rfl hnn
      | mk l rr d w => rw [Rope.Insert, if_pos hcond]
    · intro h0 hle
      obtain ⟨q, heq, _, _, _⟩ := insert_ok r hwf i s (Or.inr ⟨h0, hle⟩)
      exact ⟨q, heq⟩

theorem c5_insert_bounds_witness :
    (NewRope ['a']).Insert (-1) ['x'] = .error .outOfRange ∧
    Rope.nilR.Insert (-1) ['x'] = .ok (NewRope ['x']) := by
  constructor
  · refine ((c5_insert_bounds (NewRope ['a']) (-1) ['x'] (wf_NewRope _)).2
      (NewRope_ne_nil _)).1 ?_
    left
    decide
  · exact (c5_insert_bounds Rope.nilR (-1) ['x'] rfl).1 rfl

/-- C5 counterexample: the claim requires insert on the absent (nil) rope
at index -1 to fail with OutOfRange (since -1 < 0), but the code returns
success: the nil branch of Insert skips the bounds check entirely. -/
theorem c5_nil_insert_cex :
    Rope.nilR.Insert (-1) ['x'] = .ok (NewRope ['x']) ∧ (-1 : Int) < 0 :=
  ⟨rfl, by decide⟩

/-- C6 (amended): for a non-nil well-formed rope, Split fails with
OutOfRange exactly when i < 0 or i > length(r) and succeeds on the whole
of [0, length]; but on the nil (absent) rope Split always fails with the
"rope is nil" error, for every index including 0. -/
theorem c6_split_bounds (r : Rope) (i : Int) (hwf : wf r = true) :
    (r = .nilR → r.Split i = .error .nilRope) ∧
    (r ≠ .nilR →
      ((i < 0 ∨ i > r.Length) → r.Split i = .error .outOfRange) ∧
      (0 ≤ i → i ≤ r.Length → ∃ p, r.Split i = .ok p)) := by
  constructor
  · intro h
    subst h
    rfl
  · intro hnn
    constructor
    · intro hcond
      cases r with
      | nilR => exact absurd rfl hnn
      | mk l rr d w => rw [Rope.Split, if_pos hcond]
    · intro h0 hle
      obtain ⟨a, b, heq, _⟩ := split_ok r hwf i h0 hle hnn
      exact ⟨(a, b), heq⟩

theorem c6_split_bounds_witness :
    (NewRope ['a']).Split 2 = .error .outOfRange ∧
    Rope.nilR.Split 0 = .error .nilRope := by
  constructor
  · refine ((c6_split_bounds (NewRope ['a']) 2 (wf_NewRope _)).2
      (NewRope_ne_nil _)).1 ?_
    right
    rw [Length_NewRope]
    decide
  · exact (c6_split_bounds Rope.nilR 0 rfl).1 rfl

/-- C6 counterexample: the claim requires split on the absent (nil) rope
to succeed at i = 0 (0 is within [0, length] = [0, 0]), but the code
fails with the "rope is nil" error for every index. -/
theorem c6_nil_split_cex :
    Rope.nilR.Split 0 = .error .nilRope ∧ (0 : Int) ≤ Rope.nilR.Length :=
  ⟨rfl, by decide⟩

namespace Editor

theorem updateCursorPosition_rope (ss : Session) :
    (updateCursorPosition ss).rope = ss.rope := rfl

theorem updateCursorPosition_cursorIdx (ss : Session) :
    (updateCursorPosition ss).cursorIdx = ss.cursorIdx := rfl

theorem updateCursorPosition_undoStack (ss : Session) :
    (updateCursorPosition ss).undoStack = ss.undoStack := rfl

theorem updateCursorPosition_redoStack (ss : Session) :
    (updateCursorPosition ss).redoStack = ss.redoStack := rfl

theorem insTag_ne_delTag : insTag ≠ delTag := by decide

/-- Case analysis of `handleUndo` on a non-empty undo stack: the popped
action always moves to the redo stack; the rope and cursor change exactly
as the reverse operation dictates when it succeeds, and stay put when it
fails. -/
theorem handleUndo_cases (ss : Session) (l : List Action) (a : Action)
    (h : ss.undoStack = l ++ [a]) :
    (handleUndo ss).undoStack = l ∧
    (handleUndo ss).redoStack = ss.redoStack ++ [a] ∧
    (a.actionType = insTag →
      (∀ q, ss.rope.Delete a.position (a.position + a.content.length) = .ok q →
        (handleUndo ss).rope = q ∧ (handleUndo ss).cursorIdx = a.position) ∧
      (∀ e, ss.rope.Delete a.position (a.position + a.content.length) = .error e →
        (handleUndo ss).rope = ss.rope ∧ (handleUndo ss).cursorIdx = ss.cursorIdx)) ∧
    (a.actionType = delTag →
      (∀ q, ss.rope.Insert a.position a.content = .ok q →
        (handleUndo ss).rope = q ∧
        (handleUndo ss).cursorIdx = a.position + a.content.length) ∧
      (∀ e, ss.rope.Insert a.position a.content = .error e →
        (handleUndo ss).rope = ss.rope ∧ (handleUndo ss).cursorIdx = ss.cursorIdx)) ∧
    (a.actionType ≠ insTag → a.actionType ≠ delTag →
      (handleUndo ss).rope = ss.rope ∧ (handleUndo ss).cursorIdx = ss.cursorIdx) := by
  have hg : ss.undoStack.getLast? = some a := by rw [h, List.getLast?_concat]
  have hdl : ss.undoStack.dropLast = l := by rw [h, List.dropLast_concat]
  by_cases h1 : a.actionType = insTag
  · cases hdel : ss.rope.Delete a.position (a.position + a.content.length) with
    | ok q =>
      refine ⟨?_, ?_, ?_, ?_, ?_⟩
      · simp [handleUndo, hg, hdl, h1, hdel, updateCursorPosition]
      · simp [handleUndo, hg, hdl, h1, hdel, updateCursorPosition]
      · intro _
        constructor
        · intro q2 hq2
          obtain rfl : q = q2 := by simpa using hq2
          constructor
          · simp [handleUndo, hg, hdl, h1, hdel, updateCursorPosition]
          · simp [handleUndo, hg, hdl, h1, hdel, updateCursorPosition]
        · intro e he
          exact absurd he (by simp)
      · intro h2
        exact absurd (h1.symm.trans h2) insTag_ne_delTag
      · intro h2 _
        exact absurd h1 h2
    | error e =>
      refine ⟨?_, ?_, ?_, ?_, ?_⟩
      · simp [handleUndo, hg, hdl, h1, hdel, updateCursorPosition]
      · simp [handleUndo, hg, hdl, h1, hdel, updateCursorPosition]
      · intro _
        constructor
        · intro q2 hq2
          exact absurd hq2 (by simp)
        · intro e2 he2
          constructor
          · simp [handleUndo, hg, hdl, h1, hdel, updateCursorPosition]
          · simp [handleUndo, hg, hdl, h1, hdel, updateCursorPosition]
      · intro h2
        exact absurd (h1.symm.trans h2) insTag_ne_delTag
      · intro h2 _
        exact absurd h1 h2
  · by_cases h2 : a.actionType = delTag
    · cases hins : ss.rope.Insert a.position a.content with
      | ok q =>
        refine ⟨?_, ?_, ?_, ?_, ?_⟩
        · simp [handleUndo, hg, hdl, h1, h2, hins, Ne.symm insTag_ne_delTag, updateCursorPosition]
        · simp [handleUndo, hg, hdl, h1, h2, hins, Ne.symm insTag_ne_delTag, updateCursorPosition]
        · intro hx
          exact absurd hx h1
        · intro _
          constructor
          · intro q2 hq2
            obtain rfl : q = q2 := by simpa using hq2
            constructor
            · simp [handleUndo, hg, hdl, h1, h2, hins, Ne.symm insTag_ne_delTag, updateCursorPosition]
            · simp [handleUndo, hg, hdl, h1, h2, hins, Ne.symm insTag_ne_delTag, updateCursorPosition]
          · intro e he
            exact absurd he (by simp)
        · intro _ hx
          exact absurd h2 hx
      | error e =>
        refine ⟨?_, ?_, ?_, ?_, ?_⟩
        · simp [handleUndo, hg, hdl, h1, h2, hins, Ne.symm insTag_ne_delTag, updateCursorPosition]
        · simp [handleUndo, hg, hdl, h1, h2, hins, Ne.symm insTag_ne_delTag, updateCursorPosition]
        · intro hx
          exact absurd hx h1
        · intro _
          constructor
          · intro q2 hq2
            exact absurd hq2 (by simp)
          · intro e2 he2
            constructor
            · simp [handleUndo, hg, hdl, h1, h2, hins, Ne.symm insTag_ne_delTag, updateCursorPosition]
            · simp [handleUndo, hg, hdl, h1, h2, hins, Ne.symm insTag_ne_delTag, updateCursorPosition]
        · intro _ hx
          exact absurd h2 hx
    · refine ⟨?_, ?_, ?_, ?_, ?_⟩
      · simp [handleUndo, hg, hdl, h1, h2, Ne.symm insTag_ne_delTag, updateCursorPosition]
      · simp [handleUndo, hg, hdl, h1, h2, Ne.symm insTag_ne_delTag, updateCursorPosition]
      · intro hx
        exact absurd hx h1
      · intro hx
        exact absurd hx h2
      · intro _ _
        constructor
        · simp [handleUndo, hg, hdl, h1, h2, Ne.symm insTag_ne_delTag, updateCursorPosition]
        · simp [handleUndo, hg, hdl, h1, h2, Ne.symm insTag_ne_delTag, updateCursorPosition]

/-- Case analysis of `handleRedo` on a non-empty redo stack: the popped
action always moves back to the undo stack; the rope and cursor change
exactly as the re-applied operation dictates when it succeeds, and stay
put when it fails. -/
theorem handleRedo_cases (ss : Session) (l : List Action) (a : Action)
    (h : ss.redoStack = l ++ [a]) :
    (handleRedo ss).redoStack = l ∧
    (handleRedo ss).undoStack = ss.undoStack ++ [a] ∧
    (a.actionType = insTag →
      (∀ q, ss.rope.Insert a.position a.content = .ok q →
        (handleRedo ss).rope = q ∧
        (handleRedo ss).cursorIdx = a.position + a.content.length) ∧
      (∀ e, ss.rope.Insert a.position a.content = .error e →
        (handleRedo ss).rope = ss.rope ∧ (handleRedo ss).cursorIdx = ss.cursorIdx)) ∧
    (a.actionType = delTag →
      (∀ q, ss.rope.Delete a.position (a.position + a.content.length) = .ok q →
        (handleRedo ss).rope = q ∧ (handleRedo ss).cursorIdx = a.position) ∧
      (∀ e, ss.rope.Delete a.position (a.position + a.content.length) = .error e →
        (handleRedo ss).rope = ss.rope ∧ (handleRedo ss).cursorIdx = ss.cursorIdx)) ∧
    (a.actionType ≠ insTag → a.actionType ≠ delTag →
      (handleRedo ss).rope = ss.rope ∧ (handleRedo ss).cursorIdx = ss.cursorIdx) := by
  have hg : ss.redoStack.getLast? = some a := by rw [h, List.getLast?_concat]
  have hdl : ss.redoStack.dropLast = l := by rw [h, List.dropLast_concat]
  by_cases h1 : a.actionType = insTag
  · cases hins : ss.rope.Insert a.position a.content with
    | ok q =>
      refine ⟨?_, ?_, ?_, ?_, ?_⟩
      · simp [handleRedo, hg, hdl, h1, hins, updateCursorPosition]
      · simp [handleRedo, hg, hdl, h1, hins, updateCursorPosition]
      · intro _
        constructor
        · intro q2 hq2
          obtain rfl : q = q2 := by simpa using hq2
          constructor
          · simp [handleRedo, hg, hdl, h1, hins, updateCursorPosition]
          · simp [handleRedo, hg, hdl, h1, hins, updateCursorPosition]
        · intro e he
          exact absurd he (by simp)
      · intro h2
        exact absurd (h1.symm.trans h2) insTag_ne_delTag
      · intro h2 _
        exact absurd h1 h2
    | error e =>
      refine ⟨?_, ?_, ?_, ?_, ?_⟩
      · simp [handleRedo, hg, hdl, h1, hins, updateCursorPosition]
      · simp [handleRedo, hg, hdl, h1, hins, updateCursorPosition]
      · intro _
        constructor
        · intro q2 hq2
          exact absurd hq2 (by simp)
        · intro e2 he2
          constructor
          · simp [handleRedo, hg, hdl, h1, hins, updateCursorPosition]
          · simp [handleRedo, hg, hdl, h1, hins, updateCursorPosition]
      · intro h2
        exact absurd (h1.symm.trans h2) insTag_ne_delTag
      · intro h2 _
        exact absurd h1 h2
  · by_cases h2 : a.actionType = delTag
    · cases hdel : ss.rope.Delete a.position (a.position + a.content.length) with
      | ok q =>
        refine ⟨?_, ?_, ?_, ?_, ?_⟩
        · simp [handleRedo, hg, hdl, h1, h2, hdel, Ne.symm insTag_ne_delTag,
            updateCursorPosition]
        · simp [handleRedo, hg, hdl, h1, h2, hdel, Ne.symm insTag_ne_delTag,
            updateCursorPosition]
        · intro hx
          exact absurd hx h1
        · intro _
          constructor
          · intro q2 hq2
            obtain rfl : q = q2 := by simpa using hq2
            constructor
            · simp [handleRedo, hg, hdl, h1, h2, hdel, Ne.symm insTag_ne_delTag,
                updateCursorPosition]
            · simp [handleRedo, hg, hdl, h1, h2, hdel, Ne.symm insTag_ne_delTag,
                updateCursorPosition]
          · intro e he
            exact absurd he (by simp)
        · intro _ hx
          exact absurd h2 hx
      | error e =>
        refine ⟨?_, ?_, ?_, ?_, ?_⟩
        · simp [handleRedo, hg, hdl, h1, h2, hdel, Ne.symm insTag_ne_delTag,
            updateCursorPosition]
        · simp [handleRedo, hg, hdl, h1, h2, hdel, Ne.symm insTag_ne_delTag,
            updateCursorPosition]
        · intro hx
          exact absurd hx h1
        · intro _
          constructor
          · intro q2 hq2
            exact absurd hq2 (by simp)
          · intro e2 he2
            constructor
            · simp [handleRedo, hg, hdl, h1, h2, hdel, Ne.symm insTag_ne_delTag,
                updateCursorPosition]
            · simp [handleRedo, hg, hdl, h1, h2, hdel, Ne.symm insTag_ne_delTag,
                updateCursorPosition]
        · intro _ hx
          exact absurd h2 hx
    · refine ⟨?_, ?_, ?_, ?_, ?_⟩
      · simp [handleRedo, hg, hdl, h1, h2, Ne.symm insTag_ne_delTag, updateCursorPosition]
      · simp [handleRedo, hg, hdl, h1, h2, Ne.symm insTag_ne_delTag, updateCursorPosition]
      · intro hx
        exact absurd hx h1
      · intro hx
        exact absurd hx h2
      · intro _ _
        constructor
        · simp [handleRedo, hg, hdl, h1, h2, Ne.symm insTag_ne_delTag, updateCursorPosition]
        · simp [handleRedo, hg, hdl, h1, h2, Ne.symm insTag_ne_delTag, updateCursorPosition]

end Editor

open Editor in
/-- C10: undo() on a non-empty undo stack always moves the popped action
to the redo stack, even when the reversing rope operation fails, in which
case buffer and cursor are unchanged; redo() symmetrically always moves
the popped action back to the undo stack. -/
theorem c10_action_moves_even_on_error :
    ∀ (ss : Session) (l : List Action) (a : Action),
    (ss.undoStack = l ++ [a] →
      (handleUndo ss).undoStack = l ∧
      (handleUndo ss).redoStack = ss.redoStack ++ [a] ∧
      (∀ e, a.actionType = insTag →
        ss.rope.Delete a.position (a.position + a.content.length) = .error e →
        (handleUndo ss).rope = ss.rope ∧ (handleUndo ss).cursorIdx = ss.cursorIdx) ∧
      (∀ e, a.actionType = delTag →
        ss.rope.Insert a.position a.content = .error e →
        (handleUndo ss).rope = ss.rope ∧ (handleUndo ss).cursorIdx = ss.cursorIdx)) ∧
    (ss.redoStack = l ++ [a] →
      (handleRedo ss).redoStack = l ∧
      (handleRedo ss).undoStack = ss.undoStack ++ [a] ∧
      (∀ e, a.actionType = insTag →
        ss.rope.Insert a.position a.content = .error e →
        (handleRedo ss).rope = ss.rope ∧ (handleRedo ss).cursorIdx = ss.cursorIdx) ∧
      (∀ e, a.actionType = delTag →
        ss.rope.Delete a.position (a.position + a.content.length) = .error e →
        (handleRedo ss).rope = ss.rope ∧ (handleRedo ss).cursorIdx = ss.cursorIdx)) := by
  intro ss l a
  constructor
  · intro h
    obtain ⟨h1, h2, h3, h4, h5⟩ := handleUndo_cases ss l a h
    exact ⟨h1, h2,
      fun e hins herr => ((h3 hins).2 e herr),
      fun e hdel herr => ((h4 hdel).2 e herr)⟩
  · intro h
    obtain ⟨h1, h2, h3, h4, h5⟩ := handleRedo_cases ss l a h
    exact ⟨h1, h2,
      fun e hins herr => ((h3 hins).2 e herr),
      fun e hdel herr => ((h4 hdel).2 e herr)⟩

open Editor in
theorem c10_action_moves_even_on_error_witness :
    (handleUndo ⟨Rope.mk .nilR .nilR ['a'] 1, [⟨insTag, 5, ['x']⟩], [], 0, 1, 1⟩).undoStack
      = [] ∧
    (handleUndo ⟨Rope.mk .nilR .nilR ['a'] 1, [⟨insTag, 5, ['x']⟩], [], 0, 1, 1⟩).redoStack
      = [⟨insTag, 5, ['x']⟩] ∧
    (handleUndo ⟨Rope.mk .nilR .nilR ['a'] 1, [⟨insTag, 5, ['x']⟩], [], 0, 1, 1⟩).rope
      = Rope.mk .nilR .nilR ['a'] 1 ∧
    (handleUndo ⟨Rope.mk .nilR .nilR ['a'] 1, [⟨insTag, 5, ['x']⟩], [], 0, 1, 1⟩).cursorIdx
      = 0 := by
  have h := (c10_action_moves_even_on_error
    ⟨Rope.mk .nilR .nilR ['a'] 1, [⟨insTag, 5, ['x']⟩], [], 0, 1, 1⟩
    [] ⟨insTag, 5, ['x']⟩).1 rfl
  exact ⟨h.1, h.2.1, (h.2.2.1 .invalidRange rfl rfl).1,
    (h.2.2.1 .invalidRange rfl rfl).2⟩

open Editor in
/-- C7 (amended): a successful non-bootstrap insert and a successful
backspace leave the redo stack empty; but an insertion into an empty or
nil buffer takes the bootstrap branch and leaves the redo stack exactly
as it was; undo appends the popped action to the redo stack (never
clearing it), and redo removes exactly its top element. -/
theorem c7_redo_stack_clearing :
    ∀ (ss : Session) (s : Str),
    ((ss.rope ≠ .nilR ∧ ss.rope.Length ≠ 0) →
      ∀ q, ss.rope.Insert ss.cursorIdx s = .ok q →
      (handleInsert s ss).redoStack = []) ∧
    ((ss.rope = .nilR ∨ ss.rope.Length = 0) →
      (handleInsert s ss).redoStack = ss.redoStack) ∧
    (ss.cursorIdx > 0 →
      ∀ q, ss.rope.Delete (ss.cursorIdx - 1) ss.cursorIdx = .ok q →
      (handleBackspace ss).redoStack = []) ∧
    (∀ (l : List Action) (a : Action), ss.undoStack = l ++ [a] →
      (handleUndo ss).redoStack = ss.redoStack ++ [a]) ∧
    (ss.undoStack = [] → (handleUndo ss).redoStack = ss.redoStack) ∧
    ((handleRedo ss).redoStack = ss.redoStack.dropLast) := by
  intro ss s
  refine ⟨?_, ?_, ?_, ?_, ?_, ?_⟩
  · intro ⟨hnn, hlen⟩ q hq
    simp [handleInsert, hnn, hlen, hq, updateCursorPosition]
  · intro hboot
    rcases hboot with hb | hb <;>
      simp [handleInsert, hb, updateCursorPosition]
  · intro hpos q hq
    simp [handleBackspace, hpos, hq, updateCursorPosition]
  · intro l a h
    exact (handleUndo_cases ss l a h).2.1
  · intro h
    simp [handleUndo, h]
  · rcases List.eq_nil_or_concat ss.redoStack with h | ⟨l, a, h⟩
    · simp [handleRedo, h]
    · rw [List.concat_eq_append] at h
      rw [h, List.dropLast_concat]
      exact (handleRedo_cases ss l a h).1

open Editor in
theorem c7_redo_stack_clearing_witness :
    (handleBackspace
      ⟨Rope.mk .nilR .nilR ['a'] 1, [], [⟨insTag, 0, ['a']⟩], 1, 1, 1⟩).redoStack = [] :=
  (c7_redo_stack_clearing
    ⟨Rope.mk .nilR .nilR ['a'] 1, [], [⟨insTag, 0, ['a']⟩], 1, 1, 1⟩ ['b']).2.2.1
    (by decide) Rope.nilR rfl

open Editor in
/-- C7 counterexample: the claim says the redo stack is empty after every
user-initiated edit including insertion into an empty buffer; but the
bootstrap branch of handleInsert does not clear the redo stack, so a
pending redo entry survives the insertion. -/
theorem c7_bootstrap_keeps_redo_cex :
    (handleInsert ['x']
      ⟨.nilR, [], [⟨insTag, 0, ['a']⟩], 0, 1, 1⟩).redoStack
      = [⟨insTag, 0, ['a']⟩] := rfl

open Editor in
/-- C1 (amended): with a well-formed buffer and a top undo action whose
recorded position is in bounds (and, for an Insert action, whose recorded
content matches the buffer text at that position), undo() followed by
redo() restores the buffer content bit-for-bit; the cursor offset however
is set to the end position determined by the action (position +
len(content) for Insert, position for Delete), so it is restored
bit-for-bit exactly when it had that value before the undo. -/
theorem c1_undo_redo_roundtrip :
    ∀ (ss : Session) (l : List Action) (a : Action),
    wf ss.rope = true →
    ss.undoStack = l ++ [a] →
    0 ≤ a.position →
    ((a.actionType = insTag ∧
        a.position + (a.content.length : Int) ≤ ss.rope.Length ∧
        (ss.rope.toStr.drop a.position.toNat).take a.content.length = a.content) ∨
     (a.actionType = delTag ∧ a.position ≤ ss.rope.Length)) →
    (handleRedo (handleUndo ss)).rope.toStr = ss.rope.toStr ∧
    (handleRedo (handleUndo ss)).cursorIdx =
      (if a.actionType = insTag then a.position + a.content.length else a.position) := by
  intro ss l a hwf h h0 hcase
  obtain ⟨hu1, hu2, hu3, hu4, hu5⟩ := handleUndo_cases ss l a h
  obtain ⟨hr1, hr2, hr3, hr4, hr5⟩ :=
    handleRedo_cases (handleUndo ss) ss.redoStack a hu2
  have hlen := Rope.Length_eq_toStr ss.rope
  rcases hcase with ⟨hins, hble, hcontent⟩ | ⟨hdel, hple⟩
  · by_cases hnil : ss.rope = .nilR
    · have hlen0 : ss.rope.Length = 0 := by rw [hnil]; rfl
      have hclen : (a.content.length : Int) = 0 := by omega
      have hc : a.content = [] := by
        rw [← List.length_eq_zero]
        omega
      have hp : a.position = 0 := by omega
      have herr : ss.rope.Delete a.position (a.position + a.content.length)
          = .error .nilRope := by
        rw [hnil, Rope.Delete]
      obtain ⟨hrope1, hcur1⟩ := (hu3 hins).2 _ herr
      have hinsert : (handleUndo ss).rope.Insert a.position a.content
          = .ok (NewRope a.content) := by
        rw [hrope1, hnil, Rope.Insert]
      obtain ⟨hrope2, hcur2⟩ := (hr3 hins).1 _ hinsert
      constructor
      · rw [hrope2, toStr_NewRope, hnil, hc]
        rfl
      · rw [hcur2, if_pos hins]
    · -- non-nil buffer, Insert action: undo deletes, redo re-inserts
        have hnn := hnil
        obtain ⟨r1, hdel1, hts1, hw1⟩ :=
          delete_ok ss.rope hwf a.position (a.position + a.content.length)
            h0 (by omega) hble hnn
        obtain ⟨hrope1, hcur1⟩ := (hu3 hins).1 r1 hdel1
        have hlen1 : r1.Length = ss.rope.Length - a.content.length := by
          rw [Rope.Length_eq_toStr r1, hts1]
          simp only [List.length_append, List.length_take, List.length_drop]
          push_cast
          omega
        obtain ⟨q2, hins2, hts2, hw2, _⟩ :=
          insert_ok r1 hw1 a.position a.content (Or.inr ⟨h0, by omega⟩)
        have hins2b : (handleUndo ss).rope.Insert a.position a.content = .ok q2 := by
          rw [hrope1]
          exact hins2
        obtain ⟨hrope2, hcur2⟩ := (hr3 hins).1 q2 hins2b
        constructor
        · have hpn : a.position.toNat ≤ (ss.rope.toStr.take a.position.toNat).length := by
            simp only [List.length_take]
            omega
          have hback :
              r1.toStr.take a.position.toNat = ss.rope.toStr.take a.position.toNat := by
            rw [hts1, List.take_append_of_le_length hpn, List.take_take,
              Nat.min_self]
          have hfront :
              r1.toStr.drop a.position.toNat
                = ss.rope.toStr.drop (a.position + a.content.length).toNat := by
            have hdl1 : (ss.rope.toStr.take a.position.toNat).length
                = a.position.toNat := by
              simp only [List.length_take]
              omega
            rw [hts1, List.drop_left' hdl1]
          have e3 : ss.rope.toStr.drop (a.position + (a.content.length : Int)).toNat
              = (ss.rope.toStr.drop a.position.toNat).drop a.content.length := by
            rw [List.drop_drop]
            congr 1
            omega
          rw [hrope2, hts2, hback, hfront, e3]
          nth_rewrite 1 [← hcontent]
          rw [List.append_assoc, List.take_append_drop, List.take_append_drop]
        · rw [hcur2, if_pos hins]
  · -- Delete action: undo re-inserts, redo deletes again
    obtain ⟨r1, hins1, hts1, hw1, hnn1⟩ :=
      insert_ok ss.rope hwf a.position a.content (Or.inr ⟨h0, hple⟩)
    obtain ⟨hrope1, hcur1⟩ := (hu4 hdel).1 r1 hins1
    have hlen1 : r1.Length = ss.rope.Length + a.content.length := by
      rw [Rope.Length_eq_toStr r1, hts1]
      simp only [List.length_append, List.length_take, List.length_drop]
      push_cast
      omega
    obtain ⟨q2, hdel2, hts2, hw2⟩ :=
      delete_ok r1 hw1 a.position (a.position + a.content.length)
        h0 (by omega) (by omega) hnn1
    have hdel2b : (handleUndo ss).rope.Delete a.position
        (a.position + a.content.length) = .ok q2 := by
      rw [hrope1]
      exact hdel2
    obtain ⟨hrope2, hcur2⟩ := (hr4 hdel).1 q2 hdel2b
    constructor
    · have hpn : a.position.toNat ≤ (ss.rope.toStr.take a.position.toNat).length := by
        simp only [List.length_take]
        omega
      have hback :
          r1.toStr.take a.position.toNat = ss.rope.toStr.take a.position.toNat := by
        rw [hts1, List.take_append_of_le_length (by
            simp only [List.length_append, List.length_take]
            omega),
          List.take_append_of_le_length hpn, List.take_take, Nat.min_self]
      have hfront :
          r1.toStr.drop (a.position + a.content.length).toNat
            = ss.rope.toStr.drop a.position.toNat := by
        have hdl1 : (ss.rope.toStr.take a.position.toNat ++ a.content).length
            = (a.position + (a.content.length : Int)).toNat := by
          simp only [List.length_append, List.length_take]
          omega
        rw [hts1, List.drop_left' hdl1]
      rw [hrope2, hts2, hback, hfront, List.take_append_drop]
    · rw [hcur2, if_neg (by rw [hdel]; exact Ne.symm insTag_ne_delTag)]

open Editor in
theorem c1_undo_redo_roundtrip_witness :
    (handleRedo (handleUndo
      ⟨Rope.mk .nilR .nilR ['a', 'b'] 2, [⟨delTag, 1, ['c']⟩], [], 1, 1, 1⟩)).rope.toStr
      = ['a', 'b'] ∧
    (handleRedo (handleUndo
      ⟨Rope.mk .nilR .nilR ['a', 'b'] 2, [⟨delTag, 1, ['c']⟩], [], 1, 1, 1⟩)).cursorIdx
      = 1 := by
  have h := c1_undo_redo_roundtrip
    ⟨Rope.mk .nilR .nilR ['a', 'b'] 2, [⟨delTag, 1, ['c']⟩], [], 1, 1, 1⟩
    [] ⟨delTag, 1, ['c']⟩ (by decide) rfl (by decide)
    (Or.inr ⟨rfl, by decide⟩)
  refine ⟨h.1, ?_⟩
  rw [h.2]
  simp [Ne.symm insTag_ne_delTag]

open Editor in
/-- C1 counterexample: buffer "ab" (an internal node over two leaves, as
built by typing "b" then "a"), one recorded Insert action at position 0,
cursor moved to offset 2.  undo();redo() rebuilds the buffer content but
sets the cursor to 1 = position + len(content), not to the pre-undo 2:
the cursor offset is not restored bit-for-bit. -/
theorem c1_cursor_not_restored_cex :
    (handleRedo (handleUndo
      ⟨Rope.mk (Rope.mk .nilR .nilR ['a'] 1) (Rope.mk .nilR .nilR ['b'] 1) [] 1,
       [⟨insTag, 0, ['a']⟩], [], 2, 1, 1⟩)).cursorIdx = 1 ∧
    (⟨Rope.mk (Rope.mk .nilR .nilR ['a'] 1) (Rope.mk .nilR .nilR ['b'] 1) [] 1,
       [⟨insTag, 0, ['a']⟩], [], 2, 1, 1⟩ : Session).cursorIdx = 2 := by
  constructor
  · rfl
  · rfl

theorem listLeads_length (sub s : Str) (h : listLeads sub s = true) :
    sub.length ≤ s.length := by
  induction sub generalizing s with
  | nil => simp
  | cons a as ih =>
    cases s with
    | nil => simp [listLeads] at h
    | cons b bs =>
      simp only [listLeads, Bool.and_eq_true] at h
      have := ih bs h.2
      simp only [List.length_cons]
      omega

theorem firstMatchIdx_some_le (s sub : Str) (i : Nat)
    (h : firstMatchIdx s sub = some i) : i + sub.length ≤ s.length := by
  induction s generalizing i with
  | nil =>
    rw [firstMatchIdx] at h
    by_cases hl : listLeads sub [] = true
    · rw [if_pos hl] at h
      obtain rfl : i = 0 := by simpa using h.symm
      simpa using listLeads_length sub [] hl
    · rw [if_neg hl] at h
      simp at h
  | cons c rest ih =>
    rw [firstMatchIdx] at h
    by_cases hl : listLeads sub (c :: rest) = true
    · rw [if_pos hl] at h
      obtain rfl : i = 0 := by simpa using h.symm
      simpa using listLeads_length sub (c :: rest) hl
    · rw [if_neg hl] at h
      simp only [Option.map_eq_some'] at h
      obtain ⟨j, hj, rfl⟩ := h
      have := ih j hj
      simp only [List.length_cons]
      omega

theorem strIndex_choices (s sub : Str) :
    strIndex s sub = -1 ∨
    (0 ≤ strIndex s sub ∧ strIndex s sub + sub.length ≤ s.length) := by
  rw [strIndex]
  cases h : firstMatchIdx s sub with
  | none => exact Or.inl rfl
  | some i =>
    refine Or.inr ⟨by positivity, ?_⟩
    have := firstMatchIdx_some_le s sub i h
    push_cast
    omega

theorem countOccs_pos_strIndex (s sub : Str) (h : 0 < countOccs s sub) :
    0 ≤ strIndex s sub := by
  by_cases hsub : sub = []
  · subst hsub
    rw [strIndex, firstMatchIdx.eq_def]
    simp [listLeads]
  · rw [countOccs, dif_neg hsub] at h
    split at h
    · exact absurd h (by omega)
    · rename_i i heq
      simp [strIndex, heq]

namespace Editor

/-- Every cursor offset assigned during the search cycle lies in
`[0, length(text)]`, provided the scan either starts strictly inside the
text or a first match exists. -/
theorem searchLoop_visits_bounds (text query : Str) :
    ∀ (n : Nat) (sf : Int), 0 ≤ sf →
    (sf = 0 → 0 ≤ strIndex text query) →
    ∀ c ∈ (searchLoop text query n sf).visits,
      0 ≤ c ∧ c ≤ (text.length : Int) := by
  intro n
  induction n with
  | zero =>
    intro sf _ _ c hc
    simp [searchLoop, SearchRun.visits] at hc
  | succ n ih =>
    intro sf h0 hsf0 c hc
    rw [searchLoop] at hc
    by_cases hpan : sf < 0 ∨ sf > (text.length : Int)
    · rw [if_pos hpan] at hc
      simp [SearchRun.visits] at hc
    · rw [if_neg hpan] at hc
      simp only [] at hc
      have hdroplen : ((text.drop sf.toNat).length : Int) = text.length - sf := by
        simp only [List.length_drop]
        omega
      have hcursor : 0 ≤ sf + strIndex (text.drop sf.toNat) query ∧
          sf + strIndex (text.drop sf.toNat) query ≤ (text.length : Int) := by
        rcases strIndex_choices (text.drop sf.toNat) query with he | ⟨hge, hbd⟩
        · -- no further match: the Go code sets the cursor to searchFrom - 1
          rcases eq_or_lt_of_le h0 with heq | hlt
          · exfalso
            have h1 := hsf0 heq.symm
            rw [← heq] at he
            simp only [Int.toNat_zero, List.drop_zero] at he
            omega
          · constructor
            · omega
            · omega
        · have hq : (0 : Int) ≤ query.length := by positivity
          constructor
          · omega
          · omega
      cases hrec : searchLoop text query n
          (sf + (sf + strIndex (text.drop sf.toNat) query) + 1) with
      | ok vs =>
        rw [hrec] at hc
        simp only [SearchRun.visits, List.mem_cons] at hc
        rcases hc with rfl | hc
        · exact hcursor
        · have hih := ih (sf + (sf + strIndex (text.drop sf.toNat) query) + 1)
            (by omega) (by omega) c
          rw [hrec] at hih
          exact hih hc
      | panic vs =>
        rw [hrec] at hc
        simp only [SearchRun.visits, List.mem_cons] at hc
        rcases hc with rfl | hc
        · exact hcursor
        · have hih := ih (sf + (sf + strIndex (text.drop sf.toNat) query) + 1)
            (by omega) (by omega) c
          rw [hrec] at hih
          exact hih hc

end Editor

namespace Editor

theorem clampCursor_bounds (t : Session) :
    0 ≤ (clampCursor t).cursorIdx ∧
    (clampCursor t).cursorIdx ≤ (clampCursor t).rope.Length := by
  have step2 : ∀ u : Session, 0 ≤ u.cursorIdx →
      0 ≤ (if u.cursorIdx > u.rope.Length
            then { u with cursorIdx := u.rope.Length } else u).cursorIdx ∧
      (if u.cursorIdx > u.rope.Length
        then { u with cursorIdx := u.rope.Length } else u).cursorIdx ≤
      (if u.cursorIdx > u.rope.Length
        then { u with cursorIdx := u.rope.Length } else u).rope.Length := by
    intro u hu
    by_cases h2 : u.cursorIdx > u.rope.Length
    · rw [if_pos h2]
      exact ⟨Rope.Length_nonneg u.rope, le_refl _⟩
    · rw [if_neg h2]
      exact ⟨hu, by omega⟩
  unfold clampCursor
  refine step2 (if t.cursorIdx < 0 then { t with cursorIdx := 0 } else t) ?_
  by_cases h1 : t.cursorIdx < 0
  · rw [if_pos h1]
  · rw [if_neg h1]
    omega

/-- Case analysis of `handleInsert`. -/
theorem handleInsert_cases (s : Str) (ss : Session) :
    ((ss.rope = .nilR ∨ ss.rope.Length = 0) →
      (handleInsert s ss).rope = NewRope s ∧
      (handleInsert s ss).cursorIdx = ss.cursorIdx + s.length) ∧
    (¬(ss.rope = .nilR ∨ ss.rope.Length = 0) →
      (∀ q, ss.rope.Insert ss.cursorIdx s = .ok q →
        (handleInsert s ss).rope = q ∧
        (handleInsert s ss).cursorIdx = ss.cursorIdx + s.length) ∧
      (∀ e, ss.rope.Insert ss.cursorIdx s = .error e →
        (handleInsert s ss).rope = ss.rope ∧
        (handleInsert s ss).cursorIdx = ss.cursorIdx + s.length)) := by
  constructor
  · intro h
    constructor <;> simp [handleInsert, h, updateCursorPosition]
  · intro h
    constructor
    · intro q hq
      constructor <;> simp [handleInsert, h, hq, updateCursorPosition]
    · intro e he
      constructor <;> simp [handleInsert, h, he, updateCursorPosition]

/-- Case analysis of `handleBackspace`. -/
theorem handleBackspace_cases (ss : Session) :
    (¬(ss.cursorIdx > 0) → handleBackspace ss = ss) ∧
    (ss.cursorIdx > 0 →
      (∀ q, ss.rope.Delete (ss.cursorIdx - 1) ss.cursorIdx = .ok q →
        (handleBackspace ss).rope = q ∧
        (handleBackspace ss).cursorIdx = ss.cursorIdx - 1) ∧
      (∀ e, ss.rope.Delete (ss.cursorIdx - 1) ss.cursorIdx = .error e →
        handleBackspace ss = ss)) := by
  constructor
  · intro h
    simp [handleBackspace, h]
  · intro h
    constructor
    · intro q hq
      constructor <;> simp [handleBackspace, h, hq, updateCursorPosition]
    · intro e he
      simp [handleBackspace, h, he]

end Editor

open Editor in
/-- C9 (amended): cursor navigation always leaves the cursor offset in
[0, length] thanks to the final clamp; insertText and deleteBackward
preserve membership of the cursor offset in [0, length] on well-formed
buffers; undo and redo preserve it provided that, when the buffer is
absent (nil), the popped action's recorded position is 0 (inserting into
a nil rope skips the bounds check, so a stale action with a positive
position can push the cursor beyond the new buffer end); every cursor
offset assigned during the search cycle lies in [0, length]. -/
theorem c9_cursor_stays_in_range :
    ∀ ss : Session, 0 ≤ ss.cursorIdx → ss.cursorIdx ≤ ss.rope.Length →
    (∀ k : Int, 0 ≤ (editorMoveCursor k ss).cursorIdx ∧
      (editorMoveCursor k ss).cursorIdx ≤ (editorMoveCursor k ss).rope.Length) ∧
    (wf ss.rope = true → ∀ s : Str,
      0 ≤ (handleInsert s ss).cursorIdx ∧
      (handleInsert s ss).cursorIdx ≤ (handleInsert s ss).rope.Length) ∧
    (wf ss.rope = true →
      0 ≤ (handleBackspace ss).cursorIdx ∧
      (handleBackspace ss).cursorIdx ≤ (handleBackspace ss).rope.Length) ∧
    (wf ss.rope = true →
      (ss.rope = .nilR → ∀ (l : List Action) (a : Action),
        ss.undoStack = l ++ [a] → a.position = 0) →
      0 ≤ (handleUndo ss).cursorIdx ∧
      (handleUndo ss).cursorIdx ≤ (handleUndo ss).rope.Length) ∧
    (wf ss.rope = true →
      (ss.rope = .nilR → ∀ (l : List Action) (a : Action),
        ss.redoStack = l ++ [a] → a.position = 0) →
      0 ≤ (handleRedo ss).cursorIdx ∧
      (handleRedo ss).cursorIdx ≤ (handleRedo ss).rope.Length) ∧
    (∀ q : Str, q ≠ [] →
      ∀ c ∈ (searchLoop ss.rope.toStr q (countOccs ss.rope.toStr q) 0).visits,
        0 ≤ c ∧ c ≤ ss.rope.Length) := by
  intro ss h0 hle
  have hlen := Rope.Length_eq_toStr ss.rope
  refine ⟨?_, ?_, ?_, ?_, ?_, ?_⟩
  · intro k
    unfold editorMoveCursor
    exact clampCursor_bounds _
  · intro hwf s
    by_cases hboot : ss.rope = .nilR ∨ ss.rope.Length = 0
    · obtain ⟨hrope, hcur⟩ := (handleInsert_cases s ss).1 hboot
      have hL0 : ss.rope.Length = 0 := by
        rcases hboot with hb | hb
        · rw [hb]
          rfl
        · exact hb
      rw [hrope, hcur, Length_NewRope]
      constructor <;> omega
    · obtain ⟨q, hq, hts, hwq, _⟩ :=
        insert_ok ss.rope hwf ss.cursorIdx s (Or.inr ⟨h0, hle⟩)
      obtain ⟨hrope, hcur⟩ := ((handleInsert_cases s ss).2 hboot).1 q hq
      have hlq : q.Length = ss.rope.Length + s.length := by
        rw [Rope.Length_eq_toStr q, hts]
        simp only [List.length_append, List.length_take, List.length_drop]
        push_cast
        omega
      rw [hrope, hcur]
      constructor <;> omega
  · intro hwf
    by_cases hpos : ss.cursorIdx > 0
    · have hnn : ss.rope ≠ .nilR := by
        intro hc
        rw [hc] at hle
        have : (Rope.nilR).Length = 0 := rfl
        omega
      obtain ⟨q, hq, hts, hwq⟩ :=
        delete_ok ss.rope hwf (ss.cursorIdx - 1) ss.cursorIdx
          (by omega) (by omega) hle hnn
      obtain ⟨hrope, hcur⟩ := ((handleBackspace_cases ss).2 hpos).1 q hq
      have hlq : q.Length = ss.rope.Length - 1 := by
        rw [Rope.Length_eq_toStr q, hts]
        simp only [List.length_append, List.length_take, List.length_drop]
        push_cast
        omega
      rw [hrope, hcur]
      constructor <;> omega
    · rw [(handleBackspace_cases ss).1 hpos]
      exact ⟨h0, hle⟩
  · intro hwf hnil0
    rcases List.eq_nil_or_concat ss.undoStack with hemp | ⟨l, a, hstack⟩
    · have heq : handleUndo ss = ss := by
        simp [handleUndo, hemp]
      rw [heq]
      exact ⟨h0, hle⟩
    · rw [List.concat_eq_append] at hstack
      obtain ⟨hu1, hu2, hu3, hu4, hu5⟩ := handleUndo_cases ss l a hstack
      by_cases hins : a.actionType = insTag
      · cases hdel : ss.rope.Delete a.position (a.position + a.content.length) with
        | ok q =>
          obtain ⟨hrope, hcur⟩ := (hu3 hins).1 q hdel
          obtain ⟨hts, hwq, hb0, hb1, hb2⟩ := delete_inv ss.rope hwf _ _ q hdel
          have hlq : q.Length
              = ss.rope.Length - a.content.length := by
            rw [Rope.Length_eq_toStr q, hts]
            simp only [List.length_append, List.length_take, List.length_drop]
            push_cast
            omega
          rw [hrope, hcur]
          constructor <;> omega
        | error e =>
          obtain ⟨hrope, hcur⟩ := (hu3 hins).2 e hdel
          rw [hrope, hcur]
          exact ⟨h0, hle⟩
      · by_cases hdel : a.actionType = delTag
        · cases hinsr : ss.rope.Insert a.position a.content with
          | ok q =>
            obtain ⟨hrope, hcur⟩ := (hu4 hdel).1 q hinsr
            obtain ⟨hts, hwq, hnnq, hbnd⟩ := insert_inv ss.rope hwf _ _ q hinsr
            rw [hrope, hcur]
            by_cases hnl : ss.rope = .nilR
            · have hp0 : a.position = 0 := hnil0 hnl l a hstack
              have hlq : q.Length = (a.content.length : Int) := by
                rw [Rope.Length_eq_toStr q, hts, hnl]
                simp [Rope.toStr]
              rw [hp0, hlq]
              constructor <;> simp
            · obtain ⟨hp0, hple⟩ := hbnd hnl
              have hlq : q.Length = ss.rope.Length + a.content.length := by
                rw [Rope.Length_eq_toStr q, hts]
                simp only [List.length_append, List.length_take, List.length_drop]
                push_cast
                omega
              constructor <;> omega
          | error e =>
            obtain ⟨hrope, hcur⟩ := (hu4 hdel).2 e hinsr
            rw [hrope, hcur]
            exact ⟨h0, hle⟩
        · obtain ⟨hrope, hcur⟩ := hu5 hins hdel
          rw [hrope, hcur]
          exact ⟨h0, hle⟩
  · intro hwf hnil0
    rcases List.eq_nil_or_concat ss.redoStack with hemp | ⟨l, a, hstack⟩
    · have heq : handleRedo ss = ss := by
        simp [handleRedo, hemp]
      rw [heq]
      exact ⟨h0, hle⟩
    · rw [List.concat_eq_append] at hstack
      obtain ⟨hr1, hr2, hr3, hr4, hr5⟩ := handleRedo_cases ss l a hstack
      by_cases hins : a.actionType = insTag
      · cases hinsr : ss.rope.Insert a.position a.content with
        | ok q =>
          obtain ⟨hrope, hcur⟩ := (hr3 hins).1 q hinsr
          obtain ⟨hts, hwq, hnnq, hbnd⟩ := insert_inv ss.rope hwf _ _ q hinsr
          rw [hrope, hcur]
          by_cases hnl : ss.rope = .nilR
          · have hp0 : a.position = 0 := hnil0 hnl l a hstack
            have hlq : q.Length = (a.content.length : Int) := by
              rw [Rope.Length_eq_toStr q, hts, hnl]
              simp [Rope.toStr]
            rw [hp0, hlq]
            constructor <;> simp
          · obtain ⟨hp0, hple⟩ := hbnd hnl
            have hlq : q.Length = ss.rope.Length + a.content.length := by
              rw [Rope.Length_eq_toStr q, hts]
              simp only [List.length_append, List.length_take, List.length_drop]
              push_cast
              omega
            constructor <;> omega
        | error e =>
          obtain ⟨hrope, hcur⟩ := (hr3 hins).2 e hinsr
          rw [hrope, hcur]
          exact ⟨h0, hle⟩
      · by_cases hdel : a.actionType = delTag
        · cases hdelr : ss.rope.Delete a.position (a.position + a.content.length) with
          | ok q =>
            obtain ⟨hrope, hcur⟩ := (hr4 hdel).1 q hdelr
            obtain ⟨hts, hwq, hb0, hb1, hb2⟩ := delete_inv ss.rope hwf _ _ q hdelr
            have hlq : q.Length = ss.rope.Length - a.content.length := by
              rw [Rope.Length_eq_toStr q, hts]
              simp only [List.length_append, List.length_take, List.length_drop]
              push_cast
              omega
            rw [hrope, hcur]
            constructor <;> omega
          | error e =>
            obtain ⟨hrope, hcur⟩ := (hr4 hdel).2 e hdelr
            rw [hrope, hcur]
            exact ⟨h0, hle⟩
        · obtain ⟨hrope, hcur⟩ := hr5 hins hdel
          rw [hrope, hcur]
          exact ⟨h0, hle⟩
  · intro q _ c hc
    rcases Nat.eq_zero_or_pos (countOccs ss.rope.toStr q) with hz | hpos
    · rw [hz] at hc
      simp [searchLoop, SearchRun.visits] at hc
    · have hb := searchLoop_visits_bounds ss.rope.toStr q
        (countOccs ss.rope.toStr q) 0 (by omega)
        (fun _ => countOccs_pos_strIndex _ _ hpos) c hc
      rw [hlen]
      exact hb

open Editor in
theorem c9_cursor_stays_in_range_witness :
    0 ≤ (editorMoveCursor ArrowRight
      ⟨Rope.mk .nilR .nilR ['a'] 1, [], [], 0, 1, 1⟩).cursorIdx ∧
    (editorMoveCursor ArrowRight
      ⟨Rope.mk .nilR .nilR ['a'] 1, [], [], 0, 1, 1⟩).cursorIdx ≤
    (editorMoveCursor ArrowRight
      ⟨Rope.mk .nilR .nilR ['a'] 1, [], [], 0, 1, 1⟩).rope.Length :=
  (c9_cursor_stays_in_range ⟨Rope.mk .nilR .nilR ['a'] 1, [], [], 0, 1, 1⟩
    (by decide) (by decide)).1 ArrowRight

open Editor in
/-- C9 counterexample: a session whose buffer is absent (nil) and whose
undo stack holds a Delete action recorded at position 1.  The cursor
offset 0 is in [0, 0] before undo(); the undo inserts the recorded
content into the nil rope (no bounds check) and sets the cursor to
position + len(content) = 2, beyond the new buffer length 1. -/
theorem c9_undo_escapes_range_cex :
    (⟨.nilR, [⟨delTag, 1, ['a']⟩], [], 0, 1, 1⟩ : Session).cursorIdx = 0 ∧
    (⟨.nilR, [⟨delTag, 1, ['a']⟩], [], 0, 1, 1⟩ : Session).rope.Length = 0 ∧
    (handleUndo ⟨.nilR, [⟨delTag, 1, ['a']⟩], [], 0, 1, 1⟩).cursorIdx = 2 ∧
    (handleUndo ⟨.nilR, [⟨delTag, 1, ['a']⟩], [], 0, 1, 1⟩).rope.Length = 1 := by
  refine ⟨rfl, rfl, rfl, ?_⟩
  have h : (handleUndo ⟨.nilR, [⟨delTag, 1, ['a']⟩], [], 0, 1, 1⟩).rope
      = NewRope ['a'] := rfl
  rw [h, Length_NewRope]
  decide

namespace Editor

theorem searchLoop_visits_length_le (t q : Str) : ∀ (n : Nat) (sf : Int),
    ((searchLoop t q n sf).visits).length ≤ n := by
  intro n
  induction n with
  | zero =>
    intro sf
    simp [searchLoop, SearchRun.visits]
  | succ n ih =>
    intro sf
    rw [searchLoop]
    by_cases hpan : sf < 0 ∨ sf > (t.length : Int)
    · rw [if_pos hpan]
      simp [SearchRun.visits]
    · rw [if_neg hpan]
      simp only []
      cases hrec : searchLoop t q n
          (sf + (sf + strIndex (t.drop sf.toNat) q) + 1) with
      | ok vs =>
        have hih := ih (sf + (sf + strIndex (t.drop sf.toNat) q) + 1)
        rw [hrec] at hih
        simp only [SearchRun.visits] at hih ⊢
        simp only [List.length_cons]
        omega
      | panic vs =>
        have hih := ih (sf + (sf + strIndex (t.drop sf.toNat) q) + 1)
        rw [hrec] at hih
        simp only [SearchRun.visits] at hih ⊢
        simp only [List.length_cons]
        omega

theorem searchLoop_ok_length (t q : Str) : ∀ (n : Nat) (sf : Int) (vs : List Int),
    searchLoop t q n sf = .ok vs → vs.length = n := by
  intro n
  induction n with
  | zero =>
    intro sf vs h
    rw [searchLoop] at h
    obtain rfl : vs = [] := by simpa using h.symm
    rfl
  | succ n ih =>
    intro sf vs h
    rw [searchLoop] at h
    by_cases hpan : sf < 0 ∨ sf > (t.length : Int)
    · rw [if_pos hpan] at h
      exact absurd h (by simp)
    · rw [if_neg hpan] at h
      simp only [] at h
      cases hrec : searchLoop t q n
          (sf + (sf + strIndex (t.drop sf.toNat) q) + 1) with
      | ok vs2 =>
        rw [hrec] at h
        obtain rfl : vs = (sf + strIndex (t.drop sf.toNat) q) :: vs2 := by
          simpa using h.symm
        have := ih _ vs2 hrec
        simp only [List.length_cons]
        omega
      | panic vs2 =>
        rw [hrec] at h
        exact absurd h (by simp)

end Editor

open Editor in
/-- C8 (amended): when the query occurs in the buffer, the search cycle
under repeated presses of the "next" key (Ctrl-N) first moves the cursor
to the offset of the first occurrence; it performs at most
Count(text, query) iterations — exactly that many when no slice panic
occurs — and then ends without wrapping back to the first occurrence.
The scan position is advanced by the code's own rule
(searchFrom += cursorIdx + 1), which does not in general visit the
offsets of the non-overlapping occurrences. -/
theorem c8_search_cycle (t q : Str) (hpos : 0 < countOccs t q) :
    (searchVisits t q).length ≤ countOccs t q ∧
    (searchVisits t q).head? = some (strIndex t q) ∧
    (∀ vs, searchLoop t q (countOccs t q) 0 = .ok vs →
      vs.length = countOccs t q) := by
  refine ⟨searchLoop_visits_length_le t q _ 0, ?_,
    fun vs h => searchLoop_ok_length t q _ 0 vs h⟩
  obtain ⟨m, hm⟩ : ∃ m, countOccs t q = m + 1 :=
    ⟨countOccs t q - 1, by omega⟩
  rw [searchVisits, hm, searchLoop]
  have hlen : (0 : Int) ≤ (t.length : Int) := by positivity
  rw [if_neg (by omega)]
  simp only [Int.toNat_zero, List.drop_zero, zero_add]
  cases hrec : searchLoop t q m (strIndex t q + 1) with
  | ok vs => simp [SearchRun.visits]
  | panic vs => simp [SearchRun.visits]

open Editor in
theorem c8_search_cycle_witness :
    (searchVisits ['a', 'b'] ['b']).length ≤ countOccs ['a', 'b'] ['b'] ∧
    (searchVisits ['a', 'b'] ['b']).head? = some (strIndex ['a', 'b'] ['b']) ∧
    (∀ vs, searchLoop ['a', 'b'] ['b'] (countOccs ['a', 'b'] ['b']) 0 = .ok vs →
      vs.length = countOccs ['a', 'b'] ['b']) :=
  c8_search_cycle ['a', 'b'] ['b']
    (by simp [countOccs, firstMatchIdx, listLeads])

open Editor in
/-- C8 counterexample: buffer "aaaa", query "aa".  The non-overlapping
occurrences are at offsets 0 and 2, but the search cycle visits offsets
0 and then 1: the scan-advance line `searchFrom += session.cursorIdx + 1`
neither moves past the matched occurrence nor wraps around afterwards. -/
theorem c8_visits_differ_cex :
    searchVisits ['a', 'a', 'a', 'a'] ['a', 'a'] = [0, 1] ∧
    specOccurrences ['a', 'a', 'a', 'a'] ['a', 'a'] = [0, 2] := by
  constructor
  · simp [searchVisits, searchLoop, countOccs, firstMatchIdx, listLeads,
      strIndex, SearchRun.visits]
  · simp [specOccurrences, firstMatchIdx, listLeads]
